import Mathlib

/-!
Verification of `cryodrgn/pose_search.py` (hierarchical branch-and-bound pose
search).  Tensors are embedded as flat row-major `List ℚ` values together with
an explicit shape `List Nat`; torch index arithmetic (`view`, `topk`, modular
unflattening) becomes explicit arithmetic on flat indices.  External
collaborators (`so3_grid`, `shift_grid`, `lie_tools`, the lattice and the
render model) are not part of the source tree and are modelled from the spec
where a claim needs them.
-/

/-- Number of elements of a tensor with the given shape (product of the
dimension extents). -/
def prodDims (shape : List Nat) : Nat := shape.foldr (fun d acc => d * acc) 1

/-- Row-major flat index of a multi-index for a given shape.  This is the
flattening map whose inverse is computed by the mod-div loop at the end of
`PoseSearch.keep_matrix`. -/
def flattenIdx : List Nat → List Nat → Nat
  | _ :: ds, i :: rest => i * prodDims ds + flattenIdx ds rest
  | _, _ => 0

/-- The unflattening loop of `PoseSearch.keep_matrix`
(`for d in range(len(shape)-1, -1, -1): keep_idx[d] = flat_idx % shape[d];
flat_idx = flat_idx // shape[d]`): starting from a flat index, peel off one
digit per dimension from the innermost dimension outwards.  Returns the list
of per-dimension indices together with the final value of `flat_idx`
(asserted to be `0` in the source). -/
def unflattenIdx (shape : List Nat) (flat : Nat) : List Nat × Nat :=
  shape.foldr (fun d acc => (acc.2 % d :: acc.1, acc.2 / d)) ([], flat)

/-- `getL` from `PoseSearch`: frequency radius evaluated at a given iteration
(`min(self.Lmin * 2 ** iter_, self.Lmax)`; the `niter` argument is accepted
but unused by the current formula). -/
def getL (Lmin Lmax : Int) (iter niter : Nat) : Int :=
  min (Lmin * 2 ^ iter) Lmax

/-- One row of `loss.view(B, -1)`: the `P` candidate losses belonging to
image `i` in a flat row-major loss tensor. -/
def rowOf (loss : List ℚ) (P i : Nat) : List ℚ := (loss.drop (i * P)).take P

/-- Comparison modelling `torch.topk(..., largest=False, sorted=True)` on one
row: flat candidate positions ordered by their loss value. -/
def valLE (row : List ℚ) (i j : Nat) : Prop := row.getD i 0 ≤ row.getD j 0

instance (row : List ℚ) : DecidableRel (valLE row) := fun i j =>
  inferInstanceAs (Decidable (_ ≤ _))

instance (row : List ℚ) : IsTotal Nat (valLE row) := ⟨fun _ _ => le_total _ _⟩

instance (row : List ℚ) : IsTrans Nat (valLE row) :=
  ⟨fun _ _ _ hij hjk => le_trans hij hjk⟩

/-- Flat positions of the `max_poses` lowest values of one row of
`loss.view(B, -1)`, in non-decreasing value order: the index output of
`flat_loss.topk(max_poses, dim=-1, largest=False, sorted=True)` for that row
(`topk` returns the `k` smallest values sorted ascending; the tie order among
equal values is a fixed implementation detail the claims do not depend on). -/
def topkIdx (row : List ℚ) (k : Nat) : List Nat :=
  ((List.range row.length).insertionSort (valLE row)).take k

/-- The per-row topk indices shifted by each row's offset into the fully flat
loss vector: `flat_idx += torch.arange(B) * flat_loss.shape[1]` followed by
`flat_idx.view(-1)` in `keep_matrix`. -/
def flatKeepIdx (loss : List ℚ) (P B k : Nat) : List Nat :=
  (List.range B).flatMap fun i =>
    (topkIdx (rowOf loss P i) k).map fun j => i * P + j

/-- `PoseSearch.keep_matrix`: flatten the non-batch axes of the loss tensor,
take the `max_poses` lowest entries per image, offset them into fully flat
indices, and un-flatten each back into one index per tensor axis.  The result
is the `keep_idx` matrix, one index array per axis of `shape`. -/
def keep_matrix (shape : List Nat) (loss : List ℚ) (B max_poses : Nat) :
    List (List Nat) :=
  (List.range shape.length).map fun d =>
    (flatKeepIdx loss (loss.length / B) B max_poses).map fun f =>
      (unflattenIdx shape f).1.getD d 0

/-- Inner product of two pixel rows (`(a * b).sum(-1)` along the last axis of
the broadcast product in `eval_grid`). -/
def dotRow (x y : List ℚ) : ℚ := (List.zipWith (fun a b => a * b) x y).sum

/-- Squared norm of a pixel row. -/
def sqNorm (x : List ℚ) : ℚ := dotRow x x

/-- The mse branch of `eval_grid` for one (image, translation, orientation)
row: `err = (images - y_hat).pow(2).sum(-1)`. -/
def mse_err (images yhat : List ℚ) : ℚ :=
  (List.zipWith (fun a b => (a - b) ^ 2) images yhat).sum

/-- The msf branch of `eval_grid` for one row: `err = -dots + norm` where
`dots` is the image/prediction inner product (computed as a matrix product in
the source) and `norm = (y_hat * y_hat).sum(-1) / 2`. -/
def msf_err (images yhat : List ℚ) : ℚ :=
  -dotRow images yhat + sqNorm yhat / 2

/-- `tensor.std(-1)` squared: the Bessel-corrected variance torch uses by
default (mean subtracted, denominator `n - 1`). -/
def torch_var (x : List ℚ) : ℚ :=
  ((x.map (fun a => (a - x.sum / x.length) ^ 2)).sum) / ((x.length : ℚ) - 1)

/-- The cor branch of `eval_grid` for one row:
`err = -(images * y_hat).sum(-1) / y_hat.std(-1)`.  The source divides by the
prediction's standard deviation with no guard; in float arithmetic a division
whose divisor is `0` is non-finite (`inf` or `nan`), modelled here by `none`.
Over ℚ the irrational `std = sqrt(var)` is replaced by `var` in the divisor,
which is zero exactly when `std` is, so the definedness structure of the
division is preserved exactly. -/
def cor_err (images yhat : List ℚ) : Option ℚ :=
  if torch_var yhat = 0 then none
  else some (-dotRow images yhat / torch_var yhat)

/-- The loss dispatch of `eval_grid` (the body of `compute_err`, source lines
107-123), per (image, translation, orientation) row: three recognized loss
names; any other name raises `NotImplementedError` mentioning the unknown
`loss_fn`. -/
def compute_err (loss_fn : String) (images yhat : List ℚ) :
    Except String (Option ℚ) :=
  if loss_fn = "mse" then Except.ok (some (mse_err images yhat))
  else if loss_fn = "msf" then Except.ok (some (msf_err images yhat))
  else if loss_fn = "cor" then Except.ok (cor_err images yhat)
  else Except.error ("Unknown loss_fn: " ++ loss_fn)

/-- The std-rescale step of `rotate_images`
(`interpolated *= squeezed_images.std(-1, keepdim=True) /
interpolated.std(-1, keepdim=True)`), reduced to its per-image rescale
factor.  As in `cor_err`, the unguarded float division is non-finite exactly
when the divisor std is zero, modelled by `none`, and the squared factor
`var(orig) / var(interp)` stands in for the irrational
`std(orig) / std(interp)`. -/
def std_rescale_sq (orig interp : List ℚ) : Option ℚ :=
  if torch_var interp = 0 then none
  else some (torch_var orig / torch_var interp)

/-- Pixel read `img[r, c]` at integer tensor indices. -/
def getPix (img : List (List ℚ)) (r c : Int) : ℚ :=
  (img.getD r.toNat []).getD c.toNat 0

/-- Fractional remainder of a coordinate (`cr = c - c.floor()` in
`interpolate`; the complementary weight is `ci = 1 - cr`). -/
def fracPart (x : ℚ) : ℚ := x - (⌊x⌋ : ℚ)

/-- The module-level `interpolate` of pose_search.py for one 2-D image
(leading batch axes in the source broadcast the same per-coordinate gather).
A coordinate pair contributes its SECOND component as the row index and its
FIRST component as the column index
(`c = torch.stack((coords[:, 1], coords[:, 0]), dim=0)`); the four terms are
`img[cf0, cf1]*ci0*ci1 + img[cf0, cc1]*ci0*cr1 + img[cc0, cf1]*cr0*ci1 +
img[cc0, cc1]*cr0*cr1` with `cf`/`cc` the floor/ceil indices. -/
def interpolate (img : List (List ℚ)) (coords : List (ℚ × ℚ)) : List ℚ :=
  coords.map fun p =>
    getPix img ⌊p.2⌋ ⌊p.1⌋ * (1 - fracPart p.2) * (1 - fracPart p.1) +
    getPix img ⌊p.2⌋ ⌈p.1⌉ * (1 - fracPart p.2) * fracPart p.1 +
    getPix img ⌈p.2⌉ ⌊p.1⌋ * fracPart p.2 * (1 - fracPart p.1) +
    getPix img ⌈p.2⌉ ⌈p.1⌉ * fracPart p.2 * fracPart p.1

/-- The bilinear-interpolation formula exactly as claim C8 words it for a
(row, column) coordinate pair: the four integer-coordinate neighbors
`img[floor r, floor c]`, `img[floor r, ceil c]`, `img[ceil r, floor c]`,
`img[ceil r, ceil c]`, each weighted by the product over the two axes of one
minus the fractional distance from the sample point to that neighbor along
that axis (distance `frac` to the floor neighbor, `1 - frac` to the ceil
neighbor). -/
def bilinear_spec (img : List (List ℚ)) (r c : ℚ) : ℚ :=
  getPix img ⌊r⌋ ⌊c⌋ * ((1 - fracPart r) * (1 - fracPart c)) +
  getPix img ⌊r⌋ ⌈c⌉ * ((1 - fracPart r) * (1 - (1 - fracPart c))) +
  getPix img ⌈r⌉ ⌊c⌋ * ((1 - (1 - fracPart r)) * (1 - fracPart c)) +
  getPix img ⌈r⌉ ⌈c⌉ * ((1 - (1 - fracPart r)) * (1 - (1 - fracPart c)))

/-- A quaternion as a 4-tuple of rationals. -/
abbrev Quat4 : Type := ℚ × ℚ × ℚ × ℚ

/-- Modelled from the spec: the external collaborator
`lie_tools.quaternions_to_SO3` (batched conversion from unit quaternions to
3x3 rotation matrices), which is missing from the source tree; the standard
quaternion-to-rotation formula is used and the 3x3 shape is carried by the
matrix type. -/
def quaternions_to_SO3 (q : Quat4) : Matrix (Fin 3) (Fin 3) ℚ :=
  Matrix.of ![
    ![1 - 2 * (q.2.2.1 ^ 2 + q.2.2.2 ^ 2),
      2 * (q.2.1 * q.2.2.1 - q.2.2.2 * q.1),
      2 * (q.2.1 * q.2.2.2 + q.2.2.1 * q.1)],
    ![2 * (q.2.1 * q.2.2.1 + q.2.2.2 * q.1),
      1 - 2 * (q.2.1 ^ 2 + q.2.2.2 ^ 2),
      2 * (q.2.2.1 * q.2.2.2 - q.2.1 * q.1)],
    ![2 * (q.2.1 * q.2.2.2 - q.2.2.1 * q.1),
      2 * (q.2.2.1 * q.2.2.2 + q.2.1 * q.1),
      1 - 2 * (q.2.1 ^ 2 + q.2.2.1 ^ 2)]]

/-- Modelled from the spec: the rotation-grid topology collaborator
(`so3_grid.get_neighbor`, missing from the source tree).  Per spec sections 3
and 6 it maps a cell (canonical quaternion plus (s2, s1) index pair) at
resolution `r` to its 8 children at resolution `r + 1`: 8 child quaternions
and 8 child index pairs, each valid at `r + 1`; `valid` is the topology's
notion of an index pair being valid at a resolution. -/
structure So3Topology where
  getNeighbor : Quat4 → Nat → Nat → Nat → List Quat4 × List (Nat × Nat)
  valid : Nat → Nat × Nat → Prop
  length_quat : ∀ q i j r, (getNeighbor q i j r).1.length = 8
  length_ind : ∀ q i j r, (getNeighbor q i j r).2.length = 8
  valid_ind : ∀ q i j r c, c ∈ (getNeighbor q i j r).2 → valid (r + 1) c

/-- Modelled from the spec: the translation-grid topology collaborator as
seen through `PoseSearch.get_neighbor_shift(x, y, cur_res)` (which forwards
to `shift_grid.get_neighbor(x, y, cur_res - 1, t_extent, t_ngrid)`, missing
from the source tree).  Per spec sections 3 and 6 a cell has exactly 4
children at the next resolution: 4 child shift vectors and 4 child index
pairs, each valid at `r + 1`. -/
structure ShiftTopology where
  getNeighbor : Nat → Nat → Nat → List (ℚ × ℚ) × List (Nat × Nat)
  valid : Nat → Nat × Nat → Prop
  length_shift : ∀ x y r, (getNeighbor x y r).1.length = 4
  length_ind : ∀ x y r, (getNeighbor x y r).2.length = 4
  valid_ind : ∀ x y r c, c ∈ (getNeighbor x y r).2 → valid (r + 1) c

/-- `PoseSearch.subdivide`: expand each candidate into its 8 rotation
children and 4 translation children at the next resolution and convert the
child quaternions to rotation matrices.  The source's input and output shape
assertions are modelled by `Option`: an input or output shape deviation
yields `none` (the `AssertionError` path). -/
def subdivide (so3 : So3Topology) (sg : ShiftTopology) (quat : List Quat4)
    (q_ind t_ind : List (Nat × Nat)) (cur_res : Nat) :
    Option (List (List Quat4) × List (List (Nat × Nat)) ×
      List (List (Nat × Nat)) × List (Matrix (Fin 3) (Fin 3) ℚ) ×
      List (ℚ × ℚ)) :=
  if q_ind.length = quat.length ∧ t_ind.length = quat.length then
    let neighbors : List (List Quat4 × List (Nat × Nat)) :=
      (quat.zip q_ind).map fun qi => so3.getNeighbor qi.1 qi.2.1 qi.2.2 cur_res
    let quatC : List (List Quat4) := neighbors.map fun n => n.1
    let q_indC : List (List (Nat × Nat)) := neighbors.map fun n => n.2
    let rot : List (Matrix (Fin 3) (Fin 3) ℚ) :=
      quatC.flatten.map quaternions_to_SO3
    let tneighbors : List (List (ℚ × ℚ) × List (Nat × Nat)) :=
      t_ind.map fun xy => sg.getNeighbor xy.1 xy.2 cur_res
    let trans : List (ℚ × ℚ) := (tneighbors.map fun n => n.1).flatten
    let t_indC : List (List (Nat × Nat)) := tneighbors.map fun n => n.2
    if (quatC.length = quat.length ∧ ∀ x ∈ quatC, x.length = 8) ∧
        (q_indC.length = quat.length ∧ ∀ x ∈ q_indC, x.length = 8) ∧
        (t_indC.length = quat.length ∧ ∀ x ∈ t_indC, x.length = 4) ∧
        rot.length = quat.length * 8 ∧ trans.length = quat.length * 4 then
      some (quatC, q_indC, t_indC, rot, trans)
    else none
  else none

/-- A concrete rotation-grid topology satisfying the collaborator contract
(used to instantiate hypotheses at a concrete input). -/
def sampleSo3Topology : So3Topology where
  getNeighbor q i j _ :=
    (List.replicate 8 q, List.replicate 8 (2 * i, 2 * j))
  valid _ _ := True
  length_quat _ _ _ _ := List.length_replicate 8 _
  length_ind _ _ _ _ := List.length_replicate 8 _
  valid_ind _ _ _ _ _ _ := trivial

/-- A concrete translation-grid topology satisfying the collaborator
contract. -/
def sampleShiftTopology : ShiftTopology where
  getNeighbor _ _ _ := (List.replicate 4 (0, 0), List.replicate 4 (0, 0))
  valid _ _ := True
  length_shift _ _ _ := List.length_replicate 4 _
  length_ind _ _ _ := List.length_replicate 4 _
  valid_ind _ _ _ _ _ := trivial

/-- The empty memo table (`self._so3_neighbor_cache = {}` /
`self._shift_neighbor_cache = {}` in `__init__`). -/
def emptyCache {β : Type} : Nat × Nat × Nat → Option β := fun _ => none

/-- Store a value in a memo table under an integer key triple. -/
def cacheInsert {β : Type} (cache : Nat × Nat × Nat → Option β)
    (key : Nat × Nat × Nat) (v : β) : Nat × Nat × Nat → Option β :=
  fun k => if k = key then some v else cache k

/-- `PoseSearch.get_neighbor_so3`: memoization of `so3_grid.get_neighbor`
(abstract collaborator `f`; the real one is missing from the source tree).
The key is `(int(s2i), int(s1i), int(res))`; the quaternion is not part of
the key, which is sound because each grid cell has a single canonical
quaternion (spec section 3), so callers pass the quaternion determined by the
key.  Returns the children together with the updated memo table. -/
def get_neighbor_so3 {γ : Type} (f : Quat4 → Nat → Nat → Nat → γ)
    (cache : Nat × Nat × Nat → Option γ) (quat : Quat4) (s2i s1i res : Nat) :
    γ × (Nat × Nat × Nat → Option γ) :=
  match cache (s2i, s1i, res) with
  | some v => (v, cache)
  | none =>
      (f quat s2i s1i res,
        cacheInsert cache (s2i, s1i, res) (f quat s2i s1i res))

/-- `PoseSearch.get_neighbor_shift`: memoization of `shift_grid.get_neighbor`
(abstract collaborator `g`, with the instance's fixed `t_extent` and
`t_ngrid` folded in).  The key is `(int(x), int(y), int(res))` and the
delegate is called at `res - 1` as in the source. -/
def get_neighbor_shift {δ : Type} (g : Nat → Nat → Nat → δ)
    (cache : Nat × Nat × Nat → Option δ) (x y res : Nat) :
    δ × (Nat × Nat × Nat → Option δ) :=
  match cache (x, y, res) with
  | some v => (v, cache)
  | none =>
      (g x y (res - 1), cacheInsert cache (x, y, res) (g x y (res - 1)))

/-- One query against a search object's neighbor caches: either a
rotation-cell query (quaternion, s2 index, s1 index, resolution) or a
shift-cell query (x, y, resolution). -/
abbrev NeighborQuery : Type := (Quat4 × Nat × Nat × Nat) ⊕ (Nat × Nat × Nat)

/-- The direct (uncached) answer to a neighbor query:
`so3_grid.get_neighbor` for rotation queries, `shift_grid.get_neighbor` at
`res - 1` for shift queries. -/
def directAnswer {γ δ : Type} (f : Quat4 → Nat → Nat → Nat → γ)
    (g : Nat → Nat → Nat → δ) : NeighborQuery → γ ⊕ δ
  | Sum.inl q => Sum.inl (f q.1 q.2.1 q.2.2.1 q.2.2.2)
  | Sum.inr s => Sum.inr (g s.1 s.2.1 (s.2.2 - 1))

/-- Run a sequence of neighbor queries against one instance's two memo
tables, returning the answers in order together with the final tables. -/
def runNeighborQueries {γ δ : Type} (f : Quat4 → Nat → Nat → Nat → γ)
    (g : Nat → Nat → Nat → δ) :
    List NeighborQuery →
    (Nat × Nat × Nat → Option γ) × (Nat × Nat × Nat → Option δ) →
    List (γ ⊕ δ) ×
      ((Nat × Nat × Nat → Option γ) × (Nat × Nat × Nat → Option δ))
  | [], cs => ([], cs)
  | Sum.inl q :: qs, cs =>
      let r := get_neighbor_so3 f cs.1 q.1 q.2.1 q.2.2.1 q.2.2.2
      let rest := runNeighborQueries f g qs (r.2, cs.2)
      (Sum.inl r.1 :: rest.1, rest.2)
  | Sum.inr s :: qs, cs =>
      let r := get_neighbor_shift g cs.2 s.1 s.2.1 s.2.2
      let rest := runNeighborQueries f g qs (cs.1, r.2)
      (Sum.inr r.1 :: rest.1, rest.2)

/-- The `niter = 0`, `init_poses = None` path of
`PoseSearch.opt_theta_trans` on a batch of `B` images.  The scorer chain
(`translate_images` plus `eval_grid` over the base grids: the external
lattice and render model plus one random in-plane draw) is abstracted by its
output, the base-grid loss tensor of shape `B x T x Q` (`T` base shifts,
`Q = len(so3_base_quat)` orientation candidates), and rotation matrices and
shift vectors are opaque types.  With `niter = 0` the refinement loop
`for iter_ in range(self.base_healpy, niter + 1)` (`base_healpy = 1`)
executes zero times, so no subdivision is performed; the best pose per image
comes from the `keep_matrix(loss, B, 1)` pass indexing the base sets
(`self.so3_base_rot[bestQ]`, `self.base_shifts[bestT]`), and
`new_init_poses` packs the (translation index, rotation index) pairs of the
first pruning pass
(`torch.cat((keepT, keepQ)).view(2, B, nkeptposes).permute(1, 2, 0)`).  The
model's `training` flag is read by `assert not self.model.training` and
never written; it is threaded through unchanged as the second component. -/
def opt_theta_trans0 {R S : Type} (training : Bool) (loss : List ℚ)
    (B T Q : Nat) (so3_base_rot : List R) (base_shifts : List S)
    (nkeptposes : Nat) (rdef : R) (sdef : S) :
    Except String (List R × List S × List (List (Nat × Nat))) × Bool :=
  (if training then Except.error "assert not self.model.training"
   else
    let ks := keep_matrix [B, T, Q] loss B nkeptposes
    let keepT := ks.getD 1 []
    let keepQ := ks.getD 2 []
    let new_init_poses := (List.range B).map fun b =>
      (List.range nkeptposes).map fun p =>
        (keepT.getD (b * nkeptposes + p) 0, keepQ.getD (b * nkeptposes + p) 0)
    let best := keep_matrix [B, T, Q] loss B 1
    let best_rot := (best.getD 2 []).map fun q => so3_base_rot.getD q rdef
    let best_trans := (best.getD 1 []).map fun t => base_shifts.getD t sdef
    Except.ok (best_rot, best_trans, new_init_poses),
   training)
/-- A rotation query passes the canonical quaternion of its cell (spec
section 3: each grid cell has one associated quaternion), here an arbitrary
assignment `canon` of quaternions to cache keys; shift queries carry no
quaternion. -/
def so3QueryConsistent (canon : Nat × Nat × Nat → Quat4) :
    NeighborQuery → Prop
  | Sum.inl x => x.1 = canon (x.2.1, x.2.2.1, x.2.2.2)
  | Sum.inr _ => True

instance (canon : Nat × Nat × Nat → Quat4) :
    DecidablePred (so3QueryConsistent canon) := fun q =>
  match q with
  | Sum.inl x =>
      inferInstanceAs (Decidable (x.1 = canon (x.2.1, x.2.2.1, x.2.2.2)))
  | Sum.inr _ => inferInstanceAs (Decidable True)

theorem prodDims_cons (d : Nat) (ds : List Nat) :
    prodDims (d :: ds) = d * prodDims ds := rfl

theorem unflattenIdx_nil (f : Nat) : unflattenIdx [] f = ([], f) := rfl

theorem unflattenIdx_cons (d : Nat) (ds : List Nat) (f : Nat) :
    unflattenIdx (d :: ds) f =
      ((unflattenIdx ds f).2 % d :: (unflattenIdx ds f).1,
        (unflattenIdx ds f).2 / d) := rfl

theorem unflattenIdx_snd (shape : List Nat) (f : Nat) :
    (unflattenIdx shape f).2 = f / prodDims shape := by
  induction shape with
  | nil => simp [unflattenIdx_nil, prodDims]
  | cons d ds ih =>
      rw [unflattenIdx_cons, ih, prodDims_cons, Nat.div_div_eq_div_mul,
        Nat.mul_comm]

theorem unflattenIdx_fst_length (shape : List Nat) (f : Nat) :
    (unflattenIdx shape f).1.length = shape.length := by
  induction shape with
  | nil => rfl
  | cons d ds ih => rw [unflattenIdx_cons]; simpa using ih

/-- The digits produced by the unflattening loop re-flatten to the original
flat index modulo the total element count: flattening and un-flattening are
inverses on in-range flat indices. -/
theorem flattenIdx_unflattenIdx (shape : List Nat) (f : Nat) :
    flattenIdx shape (unflattenIdx shape f).1 = f % prodDims shape := by
  induction shape with
  | nil => simp [unflattenIdx_nil, flattenIdx, prodDims, Nat.mod_one]
  | cons d ds ih =>
      rw [unflattenIdx_cons]
      show ((unflattenIdx ds f).2 % d) * prodDims ds +
          flattenIdx ds (unflattenIdx ds f).1 = f % prodDims (d :: ds)
      rw [ih, unflattenIdx_snd, prodDims_cons, Nat.mul_comm d (prodDims ds),
        Nat.mod_mul]
      ring

theorem flattenIdx_unflattenIdx_of_lt (shape : List Nat) (f : Nat)
    (h : f < prodDims shape) :
    flattenIdx shape (unflattenIdx shape f).1 = f := by
  rw [flattenIdx_unflattenIdx, Nat.mod_eq_of_lt h]

/-- The final value of `flat_idx` after the loop is `0` for in-range flat
indices: this is the `assert (flat_idx == 0).all()` in `keep_matrix`. -/
theorem unflattenIdx_snd_eq_zero (shape : List Nat) (f : Nat)
    (h : f < prodDims shape) : (unflattenIdx shape f).2 = 0 := by
  rw [unflattenIdx_snd]; exact Nat.div_eq_of_lt h

/-- Every digit produced by the unflattening loop is strictly below its
dimension extent. -/
theorem unflattenIdx_getD_lt (shape : List Nat) (f : Nat)
    (hpos : ∀ d ∈ shape, 0 < d) :
    ∀ j, j < shape.length →
      (unflattenIdx shape f).1.getD j 0 < shape.getD j 0 := by
  induction shape generalizing f with
  | nil => intro j hj; simp at hj
  | cons d ds ih =>
      intro j hj
      rw [unflattenIdx_cons]
      cases j with
      | zero =>
          simpa using Nat.mod_lt _ (hpos d (List.mem_cons_self d ds))
      | succ j =>
          have hj' : j < ds.length := by simpa using hj
          simpa using ih f (fun x hx => hpos x (List.mem_cons_of_mem d hx)) j hj'

/-- The leading digit of an in-range flat index `i * P + j` over shape
`B :: rest` (with `P` the per-image element count) is the batch index `i`. -/
theorem unflattenIdx_head_batch (B : Nat) (rest : List Nat) (i j : Nat)
    (hi : i < B) (hj : j < prodDims rest) :
    (unflattenIdx (B :: rest) (i * prodDims rest + j)).1.getD 0 0 = i := by
  rw [unflattenIdx_cons]
  have hP : 0 < prodDims rest := Nat.pos_of_ne_zero (by
    intro h; rw [h] at hj; exact Nat.not_lt_zero j hj)
  have hdiv : (i * prodDims rest + j) / prodDims rest = i := by
    rw [Nat.mul_comm i (prodDims rest), Nat.mul_add_div hP,
      Nat.div_eq_of_lt hj]
    omega
  simp [unflattenIdx_snd, hdiv, Nat.mod_eq_of_lt hi]

/-- C4: `getL(i, niter)` equals `min(Lmin * 2^i, Lmax)`; it never exceeds
`Lmax`, and assuming `0 < Lmin` it is non-decreasing in the iteration
index. -/
theorem getL_spec (Lmin Lmax : Int) (niter : Nat) (hL : 0 < Lmin) :
    (∀ i : Nat, getL Lmin Lmax i niter = min (Lmin * 2 ^ i) Lmax) ∧
    (∀ i : Nat, getL Lmin Lmax i niter ≤ Lmax) ∧
    (∀ i j : Nat, i ≤ j →
      getL Lmin Lmax i niter ≤ getL Lmin Lmax j niter) := by
  refine ⟨fun i => rfl, fun i => min_le_right _ _, fun i j hij => ?_⟩
  have hpow : (2 : Int) ^ i ≤ 2 ^ j := by
    exact pow_le_pow_right₀ (by norm_num) hij
  exact min_le_min (by nlinarith) le_rfl

/-- Witness for C4 at `Lmin = 12`, `Lmax = 24`, iterations `1 ≤ 2`. -/
theorem getL_spec_witness :
    (0 : Int) < 12 ∧
    (getL 12 24 1 5 = min (12 * 2 ^ 1) 24 ∧
      getL 12 24 1 5 ≤ 24 ∧ getL 12 24 1 5 ≤ getL 12 24 2 5) := by
  have h := getL_spec 12 24 5 (by norm_num)
  exact ⟨by norm_num, h.1 1, h.2.1 1, h.2.2 1 2 (by norm_num)⟩

theorem getD_map_pos {β γ : Type} (l : List β) (g : β → γ) (pos : Nat)
    (d : γ) (dβ : β) (h : pos < l.length) :
    (l.map g).getD pos d = g (l.getD pos dβ) := by
  rw [List.getD_eq_getElem _ _ (by simpa using h), List.getElem_map,
    List.getD_eq_getElem _ _ h]

theorem range_map_getD {β γ : Type} (l : List β) (d : β) (f : β → γ) :
    (List.range l.length).map (fun i => f (l.getD i d)) = l.map f := by
  apply List.ext_getElem (by simp)
  intro n h1 h2
  rw [List.getElem_map, List.getElem_range]
  rw [List.getD_eq_getElem _ _ (by simpa using h2), List.getElem_map]

theorem map_getD_range {β : Type} (l : List β) (d : β) :
    (List.range l.length).map (fun i => l.getD i d) = l := by
  simpa using range_map_getD l d id

theorem flatMap_length_const {β γ : Type} (l : List β) (g : β → List γ)
    (k : Nat) (hg : ∀ a ∈ l, (g a).length = k) :
    (l.flatMap g).length = l.length * k := by
  induction l with
  | nil => simp
  | cons x xs ih =>
      rw [List.flatMap_cons, List.length_append,
        hg x (List.mem_cons_self x xs),
        ih (fun a ha => hg a (List.mem_cons_of_mem x ha))]
      simp [List.length_cons]
      ring

theorem flatMap_getD_const {β γ : Type} (l : List β) (g : β → List γ)
    (k : Nat) (dβ : β) (dγ : γ) (hg : ∀ a ∈ l, (g a).length = k)
    (i p : Nat) (hi : i < l.length) (hp : p < k) :
    (l.flatMap g).getD (i * k + p) dγ = (g (l.getD i dβ)).getD p dγ := by
  induction l generalizing i with
  | nil => simp at hi
  | cons x xs ih =>
      rw [List.flatMap_cons]
      cases i with
      | zero =>
          have hx : p < (g x).length := by
            rw [hg x (List.mem_cons_self x xs)]; exact hp
          simpa using List.getD_append _ _ dγ p hx
      | succ i =>
          have hlen : (g x).length = k := hg x (List.mem_cons_self x xs)
          have harith : (i + 1) * k + p = (g x).length + (i * k + p) := by
            rw [hlen]; ring
          rw [harith, List.getD_append_right _ _ _ _ (by omega)]
          have : (g x).length + (i * k + p) - (g x).length = i * k + p := by
            omega
          rw [this, ih (fun a ha => hg a (List.mem_cons_of_mem x ha)) i
            (by simpa using hi)]
          simp [List.getD_cons_succ]

theorem topkIdx_length (row : List ℚ) (k : Nat) (hk : k ≤ row.length) :
    (topkIdx row k).length = k := by
  rw [topkIdx, List.length_take, List.length_insertionSort, List.length_range]
  omega

theorem topkIdx_mem_lt (row : List ℚ) (k : Nat) {j : Nat}
    (hj : j ∈ topkIdx row k) : j < row.length := by
  have h := List.mem_of_mem_take hj
  rw [List.mem_insertionSort] at h
  exact List.mem_range.mp h

/-- Reading the row values back at the sorted index positions produces the
row sorted in non-decreasing order. -/
theorem sortedIdx_map_getD (row : List ℚ) :
    ((List.range row.length).insertionSort (valLE row)).map
        (fun j => row.getD j 0) =
      row.insertionSort (fun a b => a ≤ b) := by
  have hperm : (((List.range row.length).insertionSort (valLE row)).map
      (fun j => row.getD j 0)).Perm row := by
    have h1 := (List.perm_insertionSort (valLE row)
      (List.range row.length)).map (fun j => row.getD j 0)
    rwa [map_getD_range row 0] at h1
  have hs1 : (((List.range row.length).insertionSort (valLE row)).map
      (fun j => row.getD j 0)).Sorted (fun a b => a ≤ b) :=
    List.Pairwise.map _ (fun _ _ h => h)
      (List.sorted_insertionSort (valLE row) (List.range row.length))
  exact List.eq_of_perm_of_sorted
    (hperm.trans (List.perm_insertionSort _ row).symm) hs1
    (List.sorted_insertionSort _ row)

/-- Gathering the row at its topk indices yields the `k` smallest row values
in non-decreasing order. -/
theorem map_getD_topkIdx (row : List ℚ) (k : Nat) :
    (topkIdx row k).map (fun j => row.getD j 0) =
      (row.insertionSort (fun a b => a ≤ b)).take k := by
  rw [topkIdx, List.map_take, sortedIdx_map_getD]

theorem rowOf_length (loss : List ℚ) (B P i : Nat)
    (hlen : loss.length = B * P) (hi : i < B) :
    (rowOf loss P i).length = P := by
  rw [rowOf, List.length_take, List.length_drop, hlen]
  have h1 : (i + 1) * P ≤ B * P := Nat.mul_le_mul_right P (by omega)
  have h2 : (i + 1) * P = i * P + P := by ring
  omega

theorem rowOf_getD (loss : List ℚ) (B P i j : Nat)
    (hlen : loss.length = B * P) (hi : i < B) (hj : j < P) :
    (rowOf loss P i).getD j 0 = loss.getD (i * P + j) 0 := by
  have hr : (rowOf loss P i).length = P := rowOf_length loss B P i hlen hi
  have h1 : (i + 1) * P ≤ B * P := Nat.mul_le_mul_right P (by omega)
  have h2 : (i + 1) * P = i * P + P := by ring
  have hjl : i * P + j < loss.length := by omega
  rw [List.getD_eq_getElem _ _ (by rw [hr]; exact hj),
    List.getD_eq_getElem _ _ hjl]
  simp only [rowOf, List.getElem_take, List.getElem_drop]

theorem flatKeepIdx_parts_length (loss : List ℚ) (P B k : Nat)
    (hlen : loss.length = B * P) (hk : k ≤ P) :
    ∀ i ∈ List.range B,
      ((topkIdx (rowOf loss P i) k).map (fun j => i * P + j)).length = k := by
  intro i hi
  rw [List.length_map,
    topkIdx_length _ _ (by
      rw [rowOf_length loss B P i hlen (List.mem_range.mp hi)]; exact hk)]

theorem flatKeepIdx_length (loss : List ℚ) (P B k : Nat)
    (hlen : loss.length = B * P) (hk : k ≤ P) :
    (flatKeepIdx loss P B k).length = B * k := by
  rw [flatKeepIdx,
    flatMap_length_const _ _ k (flatKeepIdx_parts_length loss P B k hlen hk),
    List.length_range]

theorem flatKeepIdx_getD (loss : List ℚ) (P B k i p : Nat)
    (hlen : loss.length = B * P) (hk : k ≤ P) (hi : i < B) (hp : p < k) :
    (flatKeepIdx loss P B k).getD (i * k + p) 0 =
      i * P + (topkIdx (rowOf loss P i) k).getD p 0 := by
  rw [flatKeepIdx,
    flatMap_getD_const _ _ k 0 0
      (flatKeepIdx_parts_length loss P B k hlen hk) i p (by simpa using hi) hp]
  have hr : (List.range B).getD i 0 = i := by
    rw [List.getD_eq_getElem _ _ (by simpa using hi), List.getElem_range]
  rw [hr, getD_map_pos _ _ p _ 0 (by
    rw [topkIdx_length _ _ (by
      rw [rowOf_length loss B P i hlen hi]; exact hk)]
    exact hp)]

theorem flatKeepIdx_mem_lt (loss : List ℚ) (P B k : Nat)
    (hlen : loss.length = B * P) (hk : k ≤ P) :
    ∀ f ∈ flatKeepIdx loss P B k, f < B * P := by
  intro f hf
  rw [flatKeepIdx, List.mem_flatMap] at hf
  obtain ⟨i, hi, hfi⟩ := hf
  rw [List.mem_range] at hi
  rw [List.mem_map] at hfi
  obtain ⟨j, hj, rfl⟩ := hfi
  have hjP : j < P := by
    have h := topkIdx_mem_lt _ _ hj
    rwa [rowOf_length loss B P i hlen hi] at h
  have h1 : (i + 1) * P ≤ B * P := Nat.mul_le_mul_right P (by omega)
  have h2 : (i + 1) * P = i * P + P := by ring
  omega

theorem keep_matrix_row (shape : List Nat) (loss : List ℚ) (B k d : Nat)
    (hd : d < shape.length) :
    (keep_matrix shape loss B k).getD d [] =
      (flatKeepIdx loss (loss.length / B) B k).map fun f =>
        (unflattenIdx shape f).1.getD d 0 := by
  rw [keep_matrix, List.getD_eq_getElem _ _ (by simpa using hd),
    List.getElem_map, List.getElem_range]

theorem keep_matrix_entry (B : Nat) (rest : List Nat) (loss : List ℚ)
    (k d pos : Nat) (hB : 0 < B)
    (hlen : loss.length = B * prodDims rest) (hk : k ≤ prodDims rest)
    (hd : d < (B :: rest).length) (hpos : pos < B * k) :
    ((keep_matrix (B :: rest) loss B k).getD d []).getD pos 0 =
      (unflattenIdx (B :: rest)
        ((flatKeepIdx loss (prodDims rest) B k).getD pos 0)).1.getD d 0 := by
  have hPdiv : loss.length / B = prodDims rest := by
    rw [hlen, Nat.mul_div_cancel_left _ hB]
  rw [keep_matrix_row (B :: rest) loss B k d hd, hPdiv,
    getD_map_pos _ _ pos _ 0
      (by rw [flatKeepIdx_length loss (prodDims rest) B k hlen hk]; exact hpos)]

/-- The column of the `keep_idx` matrix at a given position is the digit list
of the corresponding selected flat index. -/
theorem keep_matrix_col (B : Nat) (rest : List Nat) (loss : List ℚ)
    (k pos : Nat) (hB : 0 < B)
    (hlen : loss.length = B * prodDims rest) (hk : k ≤ prodDims rest)
    (hpos : pos < B * k) :
    (keep_matrix (B :: rest) loss B k).map (fun arr => arr.getD pos 0) =
      (unflattenIdx (B :: rest)
        ((flatKeepIdx loss (prodDims rest) B k).getD pos 0)).1 := by
  have hPdiv : loss.length / B = prodDims rest := by
    rw [hlen, Nat.mul_div_cancel_left _ hB]
  rw [keep_matrix, List.map_map, hPdiv]
  have hfun : ((fun arr : List Nat => arr.getD pos 0) ∘ fun d =>
      (flatKeepIdx loss (prodDims rest) B k).map fun f =>
        (unflattenIdx (B :: rest) f).1.getD d 0) =
      fun d => (unflattenIdx (B :: rest)
        ((flatKeepIdx loss (prodDims rest) B k).getD pos 0)).1.getD d 0 := by
    funext d
    exact getD_map_pos _ _ pos _ 0
      (by rw [flatKeepIdx_length loss (prodDims rest) B k hlen hk]; exact hpos)
  rw [hfun,
    show (B :: rest).length = (unflattenIdx (B :: rest)
      ((flatKeepIdx loss (prodDims rest) B k).getD pos 0)).1.length from
      (unflattenIdx_fst_length _ _).symm,
    map_getD_range]

/-- C1: for every real-valued loss tensor of shape `B :: rest` (given flat in
row-major order) and every `max_poses` at most the per-image candidate count,
`keep_matrix` returns one index array per tensor axis, each of length
`B * max_poses`; every returned index is strictly below its axis' extent; the
batch-axis indices of the i-th image's block all equal `i`; and gathering the
tensor at the returned multi-indices (re-flattening the per-axis indices,
which inverts the unflattening) yields, per image, exactly its `max_poses`
smallest values in non-decreasing order. -/
theorem keep_matrix_spec (B : Nat) (rest : List Nat) (loss : List ℚ) (k : Nat)
    (hB : 0 < B) (hrest : ∀ d ∈ rest, 0 < d)
    (hlen : loss.length = prodDims (B :: rest)) (hk : k ≤ prodDims rest) :
    ((keep_matrix (B :: rest) loss B k).length = (B :: rest).length ∧
      ∀ arr ∈ keep_matrix (B :: rest) loss B k, arr.length = B * k) ∧
    (∀ d, d < (B :: rest).length → ∀ p, p < B * k →
      ((keep_matrix (B :: rest) loss B k).getD d []).getD p 0 <
        (B :: rest).getD d 0) ∧
    (∀ i, i < B → ∀ p, p < k →
      ((keep_matrix (B :: rest) loss B k).getD 0 []).getD (i * k + p) 0 = i) ∧
    (∀ i, i < B →
      (List.range k).map (fun p =>
        loss.getD (flattenIdx (B :: rest)
          ((keep_matrix (B :: rest) loss B k).map
            (fun arr => arr.getD (i * k + p) 0))) 0) =
        ((rowOf loss (prodDims rest) i).insertionSort
          (fun a b => a ≤ b)).take k) := by
  have hlen' : loss.length = B * prodDims rest := by
    rw [hlen, prodDims_cons]
  have hflen : (flatKeepIdx loss (prodDims rest) B k).length = B * k :=
    flatKeepIdx_length loss _ B k hlen' hk
  have hposall : ∀ d ∈ (B :: rest), 0 < d := by
    intro d hd
    rcases List.mem_cons.mp hd with h | h
    · exact h ▸ hB
    · exact hrest d h
  have hPdiv : loss.length / B = prodDims rest := by
    rw [hlen', Nat.mul_div_cancel_left _ hB]
  refine ⟨⟨by simp [keep_matrix], ?_⟩, ?_, ?_, ?_⟩
  · intro arr harr
    rw [keep_matrix, List.mem_map] at harr
    obtain ⟨d, hd, rfl⟩ := harr
    rw [List.length_map, hPdiv, hflen]
  · intro d hd p hp
    rw [keep_matrix_entry B rest loss k d p hB hlen' hk hd hp]
    have hfmem : (flatKeepIdx loss (prodDims rest) B k).getD p 0 ∈
        flatKeepIdx loss (prodDims rest) B k := by
      rw [List.getD_eq_getElem _ _ (by rw [hflen]; exact hp)]
      exact List.getElem_mem _
    have hflt : (flatKeepIdx loss (prodDims rest) B k).getD p 0 <
        prodDims (B :: rest) := by
      rw [prodDims_cons]
      exact flatKeepIdx_mem_lt loss _ B k hlen' hk _ hfmem
    exact unflattenIdx_getD_lt (B :: rest) _ hposall d hd
  · intro i hi p hp
    have hik : i * k + p < B * k := by
      have h1 : (i + 1) * k ≤ B * k := Nat.mul_le_mul_right k (by omega)
      have h2 : (i + 1) * k = i * k + k := by ring
      omega
    rw [keep_matrix_entry B rest loss k 0 (i * k + p) hB hlen' hk (by simp)
      hik, flatKeepIdx_getD loss _ B k i p hlen' hk hi hp]
    have hrl : (rowOf loss (prodDims rest) i).length = prodDims rest :=
      rowOf_length loss B _ i hlen' hi
    have htl : (topkIdx (rowOf loss (prodDims rest) i) k).length = k :=
      topkIdx_length _ _ (by rw [hrl]; exact hk)
    have hj : (topkIdx (rowOf loss (prodDims rest) i) k).getD p 0 <
        prodDims rest := by
      have hmem : (topkIdx (rowOf loss (prodDims rest) i) k).getD p 0 ∈
          topkIdx (rowOf loss (prodDims rest) i) k := by
        rw [List.getD_eq_getElem _ _ (by rw [htl]; exact hp)]
        exact List.getElem_mem _
      have h := topkIdx_mem_lt _ _ hmem
      rwa [hrl] at h
    exact unflattenIdx_head_batch B rest i _ hi hj
  · intro i hi
    have hrl : (rowOf loss (prodDims rest) i).length = prodDims rest :=
      rowOf_length loss B _ i hlen' hi
    have htl : (topkIdx (rowOf loss (prodDims rest) i) k).length = k :=
      topkIdx_length _ _ (by rw [hrl]; exact hk)
    apply List.ext_getElem
    · rw [List.length_map, List.length_range, List.length_take,
        List.length_insertionSort, hrl]
      omega
    intro n h1 h2
    have hn : n < k := by simpa using h1
    have hik : i * k + n < B * k := by
      have ha : (i + 1) * k ≤ B * k := Nat.mul_le_mul_right k (by omega)
      have hb : (i + 1) * k = i * k + k := by ring
      omega
    rw [List.getElem_map, List.getElem_range,
      keep_matrix_col B rest loss k (i * k + n) hB hlen' hk hik]
    have hfmem : (flatKeepIdx loss (prodDims rest) B k).getD (i * k + n) 0 ∈
        flatKeepIdx loss (prodDims rest) B k := by
      rw [List.getD_eq_getElem _ _ (by rw [hflen]; exact hik)]
      exact List.getElem_mem _
    have hflt : (flatKeepIdx loss (prodDims rest) B k).getD (i * k + n) 0 <
        prodDims (B :: rest) := by
      rw [prodDims_cons]
      exact flatKeepIdx_mem_lt loss _ B k hlen' hk _ hfmem
    rw [flattenIdx_unflattenIdx_of_lt _ _ hflt,
      flatKeepIdx_getD loss _ B k i n hlen' hk hi hn]
    have hj : (topkIdx (rowOf loss (prodDims rest) i) k).getD n 0 <
        prodDims rest := by
      have hmem : (topkIdx (rowOf loss (prodDims rest) i) k).getD n 0 ∈
          topkIdx (rowOf loss (prodDims rest) i) k := by
        rw [List.getD_eq_getElem _ _ (by rw [htl]; exact hn)]
        exact List.getElem_mem _
      have h := topkIdx_mem_lt _ _ hmem
      rwa [hrl] at h
    rw [← rowOf_getD loss B _ i _ hlen' hi hj,
      ← List.getD_eq_getElem _ 0 h2,
      ← map_getD_topkIdx (rowOf loss (prodDims rest) i) k,
      getD_map_pos _ _ n _ 0 (by rw [htl]; exact hn)]

/-- Witness for C1 on the 2 x 2 loss tensor [[3, 1], [2, 0]] with
`max_poses = 1`. -/
theorem keep_matrix_spec_witness :
    ((0 : Nat) < 2 ∧ (∀ d ∈ ([2] : List Nat), 0 < d) ∧
      ([3, 1, 2, 0] : List ℚ).length = prodDims (2 :: [2]) ∧
      1 ≤ prodDims [2]) ∧
    (((keep_matrix (2 :: [2]) [3, 1, 2, 0] 2 1).length = (2 :: [2]).length ∧
        ∀ arr ∈ keep_matrix (2 :: [2]) [3, 1, 2, 0] 2 1,
          arr.length = 2 * 1) ∧
      (∀ d, d < (2 :: [2]).length → ∀ p, p < 2 * 1 →
        ((keep_matrix (2 :: [2]) [3, 1, 2, 0] 2 1).getD d []).getD p 0 <
          (2 :: [2]).getD d 0) ∧
      (∀ i, i < 2 → ∀ p, p < 1 →
        ((keep_matrix (2 :: [2]) [3, 1, 2, 0] 2 1).getD 0 []).getD
          (i * 1 + p) 0 = i) ∧
      (∀ i, i < 2 →
        (List.range 1).map (fun p =>
          ([3, 1, 2, 0] : List ℚ).getD (flattenIdx (2 :: [2])
            ((keep_matrix (2 :: [2]) [3, 1, 2, 0] 2 1).map
              (fun arr => arr.getD (i * 1 + p) 0))) 0) =
          ((rowOf [3, 1, 2, 0] (prodDims [2]) i).insertionSort
            (fun a b => a ≤ b)).take 1)) :=
  ⟨⟨by norm_num, by decide, by decide, by decide⟩,
    keep_matrix_spec 2 [2] [3, 1, 2, 0] 1 (by norm_num) (by decide)
      (by decide) (by decide)⟩

theorem mse_err_cons (a b : ℚ) (as bs : List ℚ) :
    mse_err (a :: as) (b :: bs) = (a - b) ^ 2 + mse_err as bs := by
  simp [mse_err]

theorem dotRow_cons (a b : ℚ) (as bs : List ℚ) :
    dotRow (a :: as) (b :: bs) = a * b + dotRow as bs := by
  simp [dotRow]

theorem sqNorm_cons (a : ℚ) (as : List ℚ) :
    sqNorm (a :: as) = a * a + sqNorm as := by
  simp [sqNorm, dotRow]

/-- Squared-difference expansion of the mse row loss in terms of inner
products, for rows of equal pixel count. -/
theorem mse_expand (obs pred : List ℚ) (h : pred.length = obs.length) :
    mse_err obs pred = sqNorm obs - 2 * dotRow obs pred + sqNorm pred := by
  induction obs generalizing pred with
  | nil =>
      cases pred with
      | nil => simp [mse_err, sqNorm, dotRow]
      | cons b bs => simp at h
  | cons a as ih =>
      cases pred with
      | nil => simp at h
      | cons b bs =>
          have hl : bs.length = as.length := by simpa using h
          rw [mse_err_cons, dotRow_cons, sqNorm_cons, sqNorm_cons, ih bs hl]
          ring

/-- C3: for one observed row, the msf loss equals half the mse loss minus
half the observed row's squared norm (a term constant across candidates), so
for identical inputs the candidate ordering under msf coincides with the
ordering under mse. -/
theorem msf_mse_spec (obs pred p1 p2 : List ℚ)
    (hp : pred.length = obs.length) (h1 : p1.length = obs.length)
    (h2 : p2.length = obs.length) :
    (msf_err obs pred = mse_err obs pred / 2 - sqNorm obs / 2) ∧
    (msf_err obs p1 ≤ msf_err obs p2 ↔ mse_err obs p1 ≤ mse_err obs p2) := by
  have key : ∀ q : List ℚ, q.length = obs.length →
      msf_err obs q = mse_err obs q / 2 - sqNorm obs / 2 := by
    intro q hq
    rw [mse_expand obs q hq, msf_err]
    ring
  refine ⟨key pred hp, ?_⟩
  rw [key p1 h1, key p2 h2]
  constructor <;> intro hle <;> linarith

/-- Witness for C3 at obs = [1, 2], pred = [0, 3], candidates [1, 0] and
[5, 5]. -/
theorem msf_mse_spec_witness :
    (([0, 3] : List ℚ).length = ([1, 2] : List ℚ).length ∧
      ([1, 0] : List ℚ).length = ([1, 2] : List ℚ).length ∧
      ([5, 5] : List ℚ).length = ([1, 2] : List ℚ).length) ∧
    ((msf_err [1, 2] [0, 3] = mse_err [1, 2] [0, 3] / 2 - sqNorm [1, 2] / 2) ∧
      (msf_err [1, 2] [1, 0] ≤ msf_err [1, 2] [5, 5] ↔
        mse_err [1, 2] [1, 0] ≤ mse_err [1, 2] [5, 5])) :=
  ⟨⟨by decide, by decide, by decide⟩,
    msf_mse_spec [1, 2] [0, 3] [1, 0] [5, 5] (by decide) (by decide)
      (by decide)⟩

/-- C6: `eval_grid` raises the unknown-loss-function error exactly when the
configured `loss_fn` is not one of mse, msf, cor; for an unrecognized name
the result is the error (no loss value, no silent fallback), and every
recognized name produces a loss value. -/
theorem compute_err_spec (loss_fn : String) (images yhat : List ℚ) :
    (loss_fn ≠ "mse" ∧ loss_fn ≠ "msf" ∧ loss_fn ≠ "cor" →
      compute_err loss_fn images yhat =
        Except.error ("Unknown loss_fn: " ++ loss_fn)) ∧
    (loss_fn = "mse" ∨ loss_fn = "msf" ∨ loss_fn = "cor" →
      ∃ v, compute_err loss_fn images yhat = Except.ok v) := by
  unfold compute_err
  constructor
  · rintro ⟨ha, hb, hc⟩
    rw [if_neg ha, if_neg hb, if_neg hc]
  · rintro (h | h | h) <;> subst h
    · rw [if_pos rfl]
      exact ⟨_, rfl⟩
    · rw [if_neg (by decide), if_pos rfl]
      exact ⟨_, rfl⟩
    · rw [if_neg (by decide), if_neg (by decide), if_pos rfl]
      exact ⟨_, rfl⟩

/-- Witness for C6 at the unrecognized name abc and the recognized name
cor. -/
theorem compute_err_spec_witness :
    ((("abc" : String) ≠ "mse" ∧ ("abc" : String) ≠ "msf" ∧
        ("abc" : String) ≠ "cor") ∧
      compute_err "abc" [1] [2] =
        Except.error ("Unknown loss_fn: " ++ "abc")) ∧
    ((("cor" : String) = "mse" ∨ ("cor" : String) = "msf" ∨
        ("cor" : String) = "cor") ∧
      ∃ v, compute_err "cor" [1] [2] = Except.ok v) :=
  ⟨⟨by decide, (compute_err_spec "abc" [1] [2]).1 (by decide)⟩,
    ⟨Or.inr (Or.inr rfl),
      (compute_err_spec "cor" [1] [2]).2 (Or.inr (Or.inr rfl))⟩⟩

/-- C7: the divisions by the prediction standard deviation are NOT guarded in
the source.  On a uniform predicted image the std is zero and both the cor
loss of `eval_grid` and the std-rescale step of `rotate_images` produce a
non-finite value (modelled by `none`), contradicting the claimed explicit
clamp/guard. -/
theorem cor_std_zero_unguarded :
    torch_var [(1 : ℚ), 1, 1, 1] = 0 ∧
    cor_err [1, 2, 3, 4] [1, 1, 1, 1] = none ∧
    std_rescale_sq [1, 2, 3, 4] [1, 1, 1, 1] = none := by
  refine ⟨?_, ?_, ?_⟩ <;> norm_num [torch_var, cor_err, std_rescale_sq]

/-- C8 counterexample: with the coordinate pair read as (row, column) as the
claim states, the property fails: the code uses the second component as the
row index.  At img = [[0, 1], [2, 3]] and pair (1, 0) the claim's formula
gives img[1][0] = 2 while the code returns img[0][1] = 1. -/
theorem interpolate_counterexample :
    interpolate [[0, 1], [2, 3]] [((1 : ℚ), (0 : ℚ))] ≠
      [bilinear_spec [[0, 1], [2, 3]] 1 0] := by
  norm_num [interpolate, bilinear_spec, getPix, fracPart,
    Int.floor_one, Int.floor_zero, Int.ceil_one, Int.ceil_zero]

/-- C8 amended: reading each coordinate pair as (column, row) — the first
component indexes the column (second) axis and the second component the row
(first) axis — `interpolate` returns exactly one value per pair, namely the
bilinear combination of the four integer-coordinate neighbors with the
claim's per-axis weights. -/
theorem interpolate_spec (img : List (List ℚ)) (coords : List (ℚ × ℚ)) :
    (interpolate img coords).length = coords.length ∧
    interpolate img coords =
      coords.map (fun p => bilinear_spec img p.2 p.1) := by
  refine ⟨by simp [interpolate], ?_⟩
  unfold interpolate bilinear_spec
  apply List.map_congr_left
  intro p hp
  ring

theorem flatten_length_const {β : Type} (l : List (List β)) (k : Nat)
    (h : ∀ x ∈ l, x.length = k) : l.flatten.length = l.length * k := by
  induction l with
  | nil => simp
  | cons x xs ih =>
      rw [List.flatten_cons, List.length_append, h x (List.mem_cons_self x xs),
        ih (fun a ha => h a (List.mem_cons_of_mem x ha))]
      simp [List.length_cons]
      ring

/-- C2: for every candidate set of N quaternions with rotation-grid and
translation-grid index pairs at resolution r, `subdivide` succeeds and
returns exactly N blocks of 8 child quaternions, N blocks of 8 rotation
child index pairs, N blocks of 4 translation child index pairs, N*8 rotation
matrices (3x3 by type) and N*4 translation vectors, every child index valid
at resolution r + 1; an input shape deviation fails loudly (the assertion
path, modelled by `none`). -/
theorem subdivide_spec (so3 : So3Topology) (sg : ShiftTopology)
    (quat : List Quat4) (q_ind t_ind : List (Nat × Nat)) (cur_res : Nat)
    (hq : q_ind.length = quat.length) (ht : t_ind.length = quat.length) :
    (∃ quatC q_indC t_indC rot trans,
      subdivide so3 sg quat q_ind t_ind cur_res =
        some (quatC, q_indC, t_indC, rot, trans) ∧
      quatC.length = quat.length ∧ (∀ x ∈ quatC, x.length = 8) ∧
      q_indC.length = quat.length ∧ (∀ x ∈ q_indC, x.length = 8) ∧
      t_indC.length = quat.length ∧ (∀ x ∈ t_indC, x.length = 4) ∧
      rot.length = quat.length * 8 ∧ trans.length = quat.length * 4 ∧
      (∀ x ∈ q_indC, ∀ c ∈ x, so3.valid (cur_res + 1) c) ∧
      (∀ x ∈ t_indC, ∀ c ∈ x, sg.valid (cur_res + 1) c)) ∧
    (∀ q_ind2 t_ind2 : List (Nat × Nat),
      ¬(q_ind2.length = quat.length ∧ t_ind2.length = quat.length) →
      subdivide so3 sg quat q_ind2 t_ind2 cur_res = none) := by
  constructor
  · have hzip : ((quat.zip q_ind).map fun qi =>
        so3.getNeighbor qi.1 qi.2.1 qi.2.2 cur_res).length = quat.length := by
      rw [List.length_map, List.length_zip, hq, Nat.min_self]
    have h8q : ∀ x ∈ (((quat.zip q_ind).map fun qi =>
        so3.getNeighbor qi.1 qi.2.1 qi.2.2 cur_res).map fun n => n.1),
        x.length = 8 := by
      intro x hx
      rcases List.mem_map.mp hx with ⟨n, hn, rfl⟩
      rcases List.mem_map.mp hn with ⟨qi, _, rfl⟩
      exact so3.length_quat _ _ _ _
    have h8i : ∀ x ∈ (((quat.zip q_ind).map fun qi =>
        so3.getNeighbor qi.1 qi.2.1 qi.2.2 cur_res).map fun n => n.2),
        x.length = 8 := by
      intro x hx
      rcases List.mem_map.mp hx with ⟨n, hn, rfl⟩
      rcases List.mem_map.mp hn with ⟨qi, _, rfl⟩
      exact so3.length_ind _ _ _ _
    have hvq : ∀ x ∈ (((quat.zip q_ind).map fun qi =>
        so3.getNeighbor qi.1 qi.2.1 qi.2.2 cur_res).map fun n => n.2),
        ∀ c ∈ x, so3.valid (cur_res + 1) c := by
      intro x hx c hc
      rcases List.mem_map.mp hx with ⟨n, hn, rfl⟩
      rcases List.mem_map.mp hn with ⟨qi, _, rfl⟩
      exact so3.valid_ind _ _ _ _ c hc
    have h4s : ∀ x ∈ ((t_ind.map fun xy =>
        sg.getNeighbor xy.1 xy.2 cur_res).map fun n => n.1),
        x.length = 4 := by
      intro x hx
      rcases List.mem_map.mp hx with ⟨n, hn, rfl⟩
      rcases List.mem_map.mp hn with ⟨xy, _, rfl⟩
      exact sg.length_shift _ _ _
    have h4i : ∀ x ∈ ((t_ind.map fun xy =>
        sg.getNeighbor xy.1 xy.2 cur_res).map fun n => n.2),
        x.length = 4 := by
      intro x hx
      rcases List.mem_map.mp hx with ⟨n, hn, rfl⟩
      rcases List.mem_map.mp hn with ⟨xy, _, rfl⟩
      exact sg.length_ind _ _ _
    have hvt : ∀ x ∈ ((t_ind.map fun xy =>
        sg.getNeighbor xy.1 xy.2 cur_res).map fun n => n.2),
        ∀ c ∈ x, sg.valid (cur_res + 1) c := by
      intro x hx c hc
      rcases List.mem_map.mp hx with ⟨n, hn, rfl⟩
      rcases List.mem_map.mp hn with ⟨xy, _, rfl⟩
      exact sg.valid_ind _ _ _ c hc
    have hrotlen : ((((quat.zip q_ind).map fun qi =>
        so3.getNeighbor qi.1 qi.2.1 qi.2.2 cur_res).map fun n =>
          n.1).flatten.map quaternions_to_SO3).length = quat.length * 8 := by
      rw [List.length_map, flatten_length_const _ 8 h8q, List.length_map, hzip]
    have htrlen : (((t_ind.map fun xy =>
        sg.getNeighbor xy.1 xy.2 cur_res).map fun n =>
          n.1).flatten).length = quat.length * 4 := by
      rw [flatten_length_const _ 4 h4s, List.length_map, List.length_map, ht]
    refine ⟨_, _, _, _, _, ?_, by rw [List.length_map, hzip], h8q,
      by rw [List.length_map, hzip], h8i,
      by rw [List.length_map, List.length_map, ht], h4i, hrotlen, htrlen,
      hvq, hvt⟩
    simp only [subdivide]
    rw [if_pos ⟨hq, ht⟩, if_pos]
    exact ⟨⟨by rw [List.length_map, hzip], h8q⟩,
      ⟨by rw [List.length_map, hzip], h8i⟩,
      ⟨by rw [List.length_map, List.length_map, ht], h4i⟩, hrotlen, htrlen⟩
  · intro q2 t2 hbad
    simp only [subdivide]
    rw [if_neg hbad]

/-- Witness for C2: one candidate, the concrete sample topologies,
resolution 0. -/
theorem subdivide_spec_witness :
    (([((0 : Nat), (0 : Nat))] : List (Nat × Nat)).length =
        ([((1 : ℚ), 0, 0, 0)] : List Quat4).length ∧
      ([((0 : Nat), (0 : Nat))] : List (Nat × Nat)).length =
        ([((1 : ℚ), 0, 0, 0)] : List Quat4).length) ∧
    ((∃ quatC q_indC t_indC rot trans,
      subdivide sampleSo3Topology sampleShiftTopology
          [((1 : ℚ), 0, 0, 0)] [(0, 0)] [(0, 0)] 0 =
        some (quatC, q_indC, t_indC, rot, trans) ∧
      quatC.length = 1 ∧ (∀ x ∈ quatC, x.length = 8) ∧
      q_indC.length = 1 ∧ (∀ x ∈ q_indC, x.length = 8) ∧
      t_indC.length = 1 ∧ (∀ x ∈ t_indC, x.length = 4) ∧
      rot.length = 1 * 8 ∧ trans.length = 1 * 4 ∧
      (∀ x ∈ q_indC, ∀ c ∈ x, sampleSo3Topology.valid (0 + 1) c) ∧
      (∀ x ∈ t_indC, ∀ c ∈ x, sampleShiftTopology.valid (0 + 1) c)) ∧
    (∀ q_ind2 t_ind2 : List (Nat × Nat),
      ¬(q_ind2.length = 1 ∧ t_ind2.length = 1) →
      subdivide sampleSo3Topology sampleShiftTopology
        [((1 : ℚ), 0, 0, 0)] q_ind2 t_ind2 0 = none)) :=
  ⟨⟨rfl, rfl⟩, subdivide_spec sampleSo3Topology sampleShiftTopology
    [((1 : ℚ), 0, 0, 0)] [(0, 0)] [(0, 0)] 0 rfl rfl⟩

/-- Invariant preservation for the memoized queries: starting from memo
tables that hold only directly computed values, every query sequence yields
exactly the direct answers and leaves the tables holding only directly
computed values. -/
theorem runNeighborQueries_sound {γ δ : Type} (f : Quat4 → Nat → Nat → Nat → γ)
    (g : Nat → Nat → Nat → δ) (canon : Nat × Nat × Nat → Quat4)
    (qs : List NeighborQuery) :
    ∀ cs : (Nat × Nat × Nat → Option γ) × (Nat × Nat × Nat → Option δ),
    (∀ q ∈ qs, so3QueryConsistent canon q) →
    (∀ k v, cs.1 k = some v → v = f (canon k) k.1 k.2.1 k.2.2) →
    (∀ k v, cs.2 k = some v → v = g k.1 k.2.1 (k.2.2 - 1)) →
    (runNeighborQueries f g qs cs).1 = qs.map (directAnswer f g) ∧
    (∀ k v, (runNeighborQueries f g qs cs).2.1 k = some v →
      v = f (canon k) k.1 k.2.1 k.2.2) ∧
    (∀ k v, (runNeighborQueries f g qs cs).2.2 k = some v →
      v = g k.1 k.2.1 (k.2.2 - 1)) := by
  induction qs with
  | nil => intro cs _ hc1 hc2; exact ⟨rfl, hc1, hc2⟩
  | cons q qs ih =>
      intro cs hqs hc1 hc2
      cases q with
      | inl x =>
          have hcon : x.1 = canon (x.2.1, x.2.2.1, x.2.2.2) :=
            hqs _ (List.mem_cons_self _ _)
          have hdir : ∀ cache : Nat × Nat × Nat → Option γ,
              (∀ k v, cache k = some v → v = f (canon k) k.1 k.2.1 k.2.2) →
              (get_neighbor_so3 f cache x.1 x.2.1 x.2.2.1 x.2.2.2).1 =
                f x.1 x.2.1 x.2.2.1 x.2.2.2 ∧
              (∀ k v, (get_neighbor_so3 f cache x.1 x.2.1 x.2.2.1
                  x.2.2.2).2 k = some v →
                v = f (canon k) k.1 k.2.1 k.2.2) := by
            intro cache hsound0
            cases hhit : cache (x.2.1, x.2.2.1, x.2.2.2) with
            | none =>
                constructor
                · simp [get_neighbor_so3, hhit]
                · intro k v hv
                  simp only [get_neighbor_so3, hhit, cacheInsert] at hv
                  by_cases hk : k = (x.2.1, x.2.2.1, x.2.2.2)
                  · rw [if_pos hk] at hv
                    have hveq : v = f x.1 x.2.1 x.2.2.1 x.2.2.2 :=
                      (Option.some_injective _ hv).symm
                    subst hk
                    rw [hveq, hcon]
                  · rw [if_neg hk] at hv
                    exact hsound0 k v hv
            | some v0 =>
                constructor
                · have hv0 := hsound0 _ _ hhit
                  simp [get_neighbor_so3, hhit]
                  rw [hv0, ← hcon]
                · intro k v hv
                  simp only [get_neighbor_so3, hhit] at hv
                  exact hsound0 k v hv
          obtain ⟨hval, hsound⟩ := hdir cs.1 hc1
          obtain ⟨ih1, ih2, ih3⟩ := ih
            ((get_neighbor_so3 f cs.1 x.1 x.2.1 x.2.2.1 x.2.2.2).2, cs.2)
            (fun q hq => hqs q (List.mem_cons_of_mem _ hq)) hsound hc2
          refine ⟨?_, ih2, ih3⟩
          simp only [runNeighborQueries, List.map_cons]
          rw [hval, ih1]
          rfl
      | inr s =>
          have hdir : ∀ cache : Nat × Nat × Nat → Option δ,
              (∀ k v, cache k = some v → v = g k.1 k.2.1 (k.2.2 - 1)) →
              (get_neighbor_shift g cache s.1 s.2.1 s.2.2).1 =
                g s.1 s.2.1 (s.2.2 - 1) ∧
              (∀ k v, (get_neighbor_shift g cache s.1 s.2.1 s.2.2).2 k =
                  some v → v = g k.1 k.2.1 (k.2.2 - 1)) := by
            intro cache hsound0
            cases hhit : cache (s.1, s.2.1, s.2.2) with
            | none =>
                constructor
                · simp [get_neighbor_shift, hhit]
                · intro k v hv
                  simp only [get_neighbor_shift, hhit, cacheInsert] at hv
                  by_cases hk : k = (s.1, s.2.1, s.2.2)
                  · rw [if_pos hk] at hv
                    have hveq : v = g s.1 s.2.1 (s.2.2 - 1) :=
                      (Option.some_injective _ hv).symm
                    subst hk
                    rw [hveq]
                  · rw [if_neg hk] at hv
                    exact hsound0 k v hv
            | some v0 =>
                constructor
                · have hv0 := hsound0 _ _ hhit
                  simp [get_neighbor_shift, hhit]
                  rw [hv0]
                · intro k v hv
                  simp only [get_neighbor_shift, hhit] at hv
                  exact hsound0 k v hv
          obtain ⟨hval, hsound⟩ := hdir cs.2 hc2
          obtain ⟨ih1, ih2, ih3⟩ := ih
            (cs.1, (get_neighbor_shift g cs.2 s.1 s.2.1 s.2.2).2)
            (fun q hq => hqs q (List.mem_cons_of_mem _ hq)) hc1 hsound
          refine ⟨?_, ih2, ih3⟩
          simp only [runNeighborQueries, List.map_cons]
          rw [hval, ih1]
          rfl

/-- C9: within one `PoseSearch` instance (memo tables start empty), every
sequence of neighbor queries is observationally equivalent to the external
grid collaborators: every `get_neighbor_so3(quat, s2i, s1i, res)` call
returns exactly the direct `so3_grid.get_neighbor` computation for that cell
and resolution, and every `get_neighbor_shift(x, y, res)` call the direct
`shift_grid.get_neighbor(x, y, res - 1, ...)` computation, regardless of the
cache state reached; and every cached entry holds exactly that direct value,
so a repeated call with the same key returns the cached value unchanged.
Callers pass the cell's canonical quaternion (spec section 3), expressed by
the `so3QueryConsistent` hypothesis. -/
theorem neighbor_cache_spec {γ δ : Type} (f : Quat4 → Nat → Nat → Nat → γ)
    (g : Nat → Nat → Nat → δ) (canon : Nat × Nat × Nat → Quat4)
    (qs : List NeighborQuery)
    (hqs : ∀ q ∈ qs, so3QueryConsistent canon q) :
    (runNeighborQueries f g qs (emptyCache, emptyCache)).1 =
      qs.map (directAnswer f g) ∧
    (∀ k v, (runNeighborQueries f g qs (emptyCache, emptyCache)).2.1 k =
      some v → v = f (canon k) k.1 k.2.1 k.2.2) ∧
    (∀ k v, (runNeighborQueries f g qs (emptyCache, emptyCache)).2.2 k =
      some v → v = g k.1 k.2.1 (k.2.2 - 1)) :=
  runNeighborQueries_sound f g canon qs (emptyCache, emptyCache) hqs
    (fun k v h => by simp [emptyCache] at h)
    (fun k v h => by simp [emptyCache] at h)

/-- Witness for C9: a three-query sequence (the first rotation query
repeated, so the third call is a cache hit) against concrete collaborators. -/
theorem neighbor_cache_spec_witness :
    (∀ q ∈ ([Sum.inl (((1 : ℚ), 0, 0, 0), 0, 1, 2), Sum.inr (3, 4, 5),
        Sum.inl (((1 : ℚ), 0, 0, 0), 0, 1, 2)] : List NeighborQuery),
      so3QueryConsistent (fun _ => ((1 : ℚ), 0, 0, 0)) q) ∧
    ((runNeighborQueries (fun _ i j r => i + 2 * j + 3 * r)
        (fun x y r => x + y + r)
        ([Sum.inl (((1 : ℚ), 0, 0, 0), 0, 1, 2), Sum.inr (3, 4, 5),
          Sum.inl (((1 : ℚ), 0, 0, 0), 0, 1, 2)] : List NeighborQuery)
        (emptyCache, emptyCache)).1 =
      ([Sum.inl (((1 : ℚ), 0, 0, 0), 0, 1, 2), Sum.inr (3, 4, 5),
        Sum.inl (((1 : ℚ), 0, 0, 0), 0, 1, 2)] : List NeighborQuery).map
        (directAnswer (fun _ i j r => i + 2 * j + 3 * r)
          (fun x y r => x + y + r)) ∧
    (∀ k v, (runNeighborQueries (fun _ i j r => i + 2 * j + 3 * r)
        (fun x y r => x + y + r)
        ([Sum.inl (((1 : ℚ), 0, 0, 0), 0, 1, 2), Sum.inr (3, 4, 5),
          Sum.inl (((1 : ℚ), 0, 0, 0), 0, 1, 2)] : List NeighborQuery)
        (emptyCache, emptyCache)).2.1 k = some v →
      v = k.1 + 2 * k.2.1 + 3 * k.2.2) ∧
    (∀ k v, (runNeighborQueries (fun _ i j r => i + 2 * j + 3 * r)
        (fun x y r => x + y + r)
        ([Sum.inl (((1 : ℚ), 0, 0, 0), 0, 1, 2), Sum.inr (3, 4, 5),
          Sum.inl (((1 : ℚ), 0, 0, 0), 0, 1, 2)] : List NeighborQuery)
        (emptyCache, emptyCache)).2.2 k = some v →
      v = k.1 + k.2.1 + (k.2.2 - 1))) :=
  ⟨by
      intro q hq
      simp only [List.mem_cons, List.not_mem_nil, or_false] at hq
      rcases hq with rfl | rfl | rfl
      · rfl
      · trivial
      · rfl,
    neighbor_cache_spec (fun _ i j r => i + 2 * j + 3 * r)
      (fun x y r => x + y + r) (fun _ => ((1 : ℚ), 0, 0, 0))
      ([Sum.inl (((1 : ℚ), 0, 0, 0), 0, 1, 2), Sum.inr (3, 4, 5),
        Sum.inl (((1 : ℚ), 0, 0, 0), 0, 1, 2)] : List NeighborQuery)
      (by
        intro q hq
        simp only [List.mem_cons, List.not_mem_nil, or_false] at hq
        rcases hq with rfl | rfl | rfl
        · rfl
        · trivial
        · rfl)⟩

/-- C10: `opt_theta_trans` requires the render model to be in inference mode:
the first statement after reading the batch is
`assert not self.model.training`.  If the flag is true the call aborts with
the assertion failure for every batch and every scorer output (so no grid
evaluation or scoring contributes to the result), and the flag itself is
never written: it is returned unchanged for every input. -/
theorem opt_theta_trans0_training_guard :
    (∀ (R S : Type) (rdef : R) (sdef : S) (loss : List ℚ) (B T Q K : Nat)
        (rots : List R) (shifts : List S),
      (opt_theta_trans0 true loss B T Q rots shifts K rdef sdef).1 =
        Except.error "assert not self.model.training") ∧
    (∀ (R S : Type) (rdef : R) (sdef : S) (training : Bool) (loss : List ℚ)
        (B T Q K : Nat) (rots : List R) (shifts : List S),
      (opt_theta_trans0 training loss B T Q rots shifts K rdef sdef).2 =
        training) := by
  constructor
  · intro R S rdef sdef loss B T Q K rots shifts
    simp [opt_theta_trans0]
  · intro R S rdef sdef training loss B T Q K rots shifts
    rfl

theorem sorted_head_min (row : List ℚ) (hrow : 0 < row.length) :
    ∀ y ∈ row, (row.insertionSort (fun a b => a ≤ b)).getD 0 0 ≤ y := by
  intro y hy
  have hlen : (row.insertionSort (fun a b => a ≤ b)).length = row.length :=
    List.length_insertionSort _ _
  obtain ⟨s, rest, hsr⟩ : ∃ s rest,
      row.insertionSort (fun a b => a ≤ b) = s :: rest := by
    cases hs : row.insertionSort (fun a b => a ≤ b) with
    | nil => rw [hs] at hlen; simp at hlen; omega
    | cons s rest => exact ⟨s, rest, rfl⟩
  have hsorted := List.sorted_insertionSort (fun a b : ℚ => a ≤ b) row
  rw [hsr] at hsorted
  have hmem : y ∈ s :: rest := by
    rw [← hsr]
    exact ((List.perm_insertionSort _ row).symm.mem_iff).mp hy
  rw [hsr]
  simp only [List.getD_cons_zero]
  rcases List.mem_cons.mp hmem with rfl | hmem2
  · exact le_refl y
  · exact (List.sorted_cons.mp hsorted).1 y hmem2

theorem topk_one_gather (row : List ℚ) (hrow : 0 < row.length) :
    row.getD ((topkIdx row 1).getD 0 0) 0 =
      (row.insertionSort (fun a b => a ≤ b)).getD 0 0 := by
  have hmap := map_getD_topkIdx row 1
  have htl : (topkIdx row 1).length = 1 := topkIdx_length row 1 hrow
  obtain ⟨j0, hj0⟩ := List.length_eq_one.mp htl
  have hlen : (row.insertionSort (fun a b => a ≤ b)).length = row.length :=
    List.length_insertionSort _ _
  obtain ⟨s, rest, hsr⟩ : ∃ s rest,
      row.insertionSort (fun a b => a ≤ b) = s :: rest := by
    cases hs : row.insertionSort (fun a b => a ≤ b) with
    | nil => rw [hs] at hlen; simp at hlen; omega
    | cons s rest => exact ⟨s, rest, rfl⟩
  rw [hj0, hsr] at hmap
  simp only [List.map_cons, List.map_nil, List.take_succ_cons,
    List.take_zero] at hmap
  rw [hj0, hsr]
  simp only [List.getD_cons_zero]
  simpa using hmap

theorem topk_one_min (row : List ℚ) (hrow : 0 < row.length) :
    ∀ j2, j2 < row.length →
      row.getD ((topkIdx row 1).getD 0 0) 0 ≤ row.getD j2 0 := by
  intro j2 hj2
  rw [topk_one_gather row hrow]
  apply sorted_head_min row hrow
  rw [List.getD_eq_getElem _ _ hj2]
  exact List.getElem_mem _

theorem keep_matrix_getD_lt (B : Nat) (rest : List Nat) (loss : List ℚ)
    (k d pos : Nat) (hB : 0 < B) (hrest : ∀ x ∈ rest, 0 < x)
    (hlen : loss.length = B * prodDims rest) (hk : k ≤ prodDims rest)
    (hd : d < (B :: rest).length) (hpos : pos < B * k) :
    ((keep_matrix (B :: rest) loss B k).getD d []).getD pos 0 <
      (B :: rest).getD d 0 := by
  rw [keep_matrix_entry B rest loss k d pos hB hlen hk hd hpos]
  have hflen := flatKeepIdx_length loss (prodDims rest) B k hlen hk
  have hfmem : (flatKeepIdx loss (prodDims rest) B k).getD pos 0 ∈
      flatKeepIdx loss (prodDims rest) B k := by
    rw [List.getD_eq_getElem _ _ (by rw [hflen]; exact hpos)]
    exact List.getElem_mem _
  have hflt : (flatKeepIdx loss (prodDims rest) B k).getD pos 0 <
      prodDims (B :: rest) := by
    rw [prodDims_cons]
    exact flatKeepIdx_mem_lt loss _ B k hlen hk _ hfmem
  refine unflattenIdx_getD_lt (B :: rest) _ ?_ d hd
  intro x hx
  rcases List.mem_cons.mp hx with rfl | hx2
  · exact hB
  · exact hrest x hx2

/-- C5: with `niter = 0` and no initial poses, `opt_theta_trans` returns
exactly one rotation and one translation per image, both drawn from the base
grid sets (`so3_base_rot`, `base_shifts`) at each image's single lowest-loss
base candidate (no subdivision: the refinement loop body never runs), and the
warm-start output has shape `B x nkeptposes x 2` holding the (translation
index, rotation index) pairs of the first pruning pass, each index valid for
its base grid. -/
theorem opt_theta_trans0_spec {R S : Type} (loss : List ℚ) (B T Q K : Nat)
    (so3_base_rot : List R) (base_shifts : List S) (rdef : R) (sdef : S)
    (hB : 0 < B) (hT : 0 < T) (hQ : 0 < Q)
    (hlen : loss.length = B * (T * Q)) (hK : K ≤ T * Q)
    (hrot : so3_base_rot.length = Q) (hshift : base_shifts.length = T) :
    ∃ best_rot best_trans nip,
      (opt_theta_trans0 false loss B T Q so3_base_rot base_shifts K
          rdef sdef).1 = Except.ok (best_rot, best_trans, nip) ∧
      best_rot.length = B ∧ best_trans.length = B ∧
      (∀ i, i < B → ∃ t q, t < T ∧ q < Q ∧
        best_rot.getD i rdef = so3_base_rot.getD q rdef ∧
        best_trans.getD i sdef = base_shifts.getD t sdef ∧
        best_rot.getD i rdef ∈ so3_base_rot ∧
        best_trans.getD i sdef ∈ base_shifts ∧
        (∀ t2 q2, t2 < T → q2 < Q →
          loss.getD (i * (T * Q) + (t * Q + q)) 0 ≤
            loss.getD (i * (T * Q) + (t2 * Q + q2)) 0)) ∧
      nip.length = B ∧ (∀ r ∈ nip, r.length = K) ∧
      (∀ b p, b < B → p < K →
        (nip.getD b []).getD p (0, 0) =
          (((keep_matrix [B, T, Q] loss B K).getD 1 []).getD (b * K + p) 0,
            ((keep_matrix [B, T, Q] loss B K).getD 2 []).getD (b * K + p) 0) ∧
        ((nip.getD b []).getD p (0, 0)).1 < T ∧
        ((nip.getD b []).getD p (0, 0)).2 < Q) := by
  have hP : prodDims [T, Q] = T * Q := by simp [prodDims]
  have hrest : ∀ x ∈ [T, Q], 0 < x := by
    intro x hx
    rcases List.mem_cons.mp hx with rfl | hx2
    · exact hT
    rcases List.mem_cons.mp hx2 with rfl | hx3
    · exact hQ
    · simp at hx3
  have hlen' : loss.length = B * prodDims [T, Q] := by rw [hP]; exact hlen
  have hTQ : 0 < T * Q := Nat.mul_pos hT hQ
  have h1 : 1 ≤ prodDims [T, Q] := by rw [hP]; omega
  have hK' : K ≤ prodDims [T, Q] := by rw [hP]; exact hK
  have hPdiv : loss.length / B = prodDims [T, Q] := by
    rw [hlen', Nat.mul_div_cancel_left _ hB]
  have hflen1 : (flatKeepIdx loss (prodDims [T, Q]) B 1).length = B * 1 :=
    flatKeepIdx_length loss _ B 1 hlen' h1
  have hlen1 : ((keep_matrix [B, T, Q] loss B 1).getD 1 []).length = B := by
    rw [keep_matrix_row [B, T, Q] loss B 1 1 (by simp), List.length_map,
      hPdiv, hflen1]
    omega
  have hlen2 : ((keep_matrix [B, T, Q] loss B 1).getD 2 []).length = B := by
    rw [keep_matrix_row [B, T, Q] loss B 1 2 (by simp), List.length_map,
      hPdiv, hflen1]
    omega
  refine ⟨_, _, _, rfl, ?_, ?_, ?_, ?_, ?_, ?_⟩
  · rw [List.length_map, hlen2]
  · rw [List.length_map, hlen1]
  · intro i hi
    have hi1 : i < B * 1 := by omega
    have hent1 : ((keep_matrix [B, T, Q] loss B 1).getD 1 []).getD i 0 =
        (unflattenIdx [B, T, Q]
          ((flatKeepIdx loss (prodDims [T, Q]) B 1).getD i 0)).1.getD 1 0 :=
      keep_matrix_entry B [T, Q] loss 1 1 i hB hlen' h1 (by simp) hi1
    have hent2 : ((keep_matrix [B, T, Q] loss B 1).getD 2 []).getD i 0 =
        (unflattenIdx [B, T, Q]
          ((flatKeepIdx loss (prodDims [T, Q]) B 1).getD i 0)).1.getD 2 0 :=
      keep_matrix_entry B [T, Q] loss 1 2 i hB hlen' h1 (by simp) hi1
    have htlt : ((keep_matrix [B, T, Q] loss B 1).getD 1 []).getD i 0 < T :=
      keep_matrix_getD_lt B [T, Q] loss 1 1 i hB hrest hlen' h1 (by simp) hi1
    have hqlt : ((keep_matrix [B, T, Q] loss B 1).getD 2 []).getD i 0 < Q :=
      keep_matrix_getD_lt B [T, Q] loss 1 2 i hB hrest hlen' h1 (by simp) hi1
    refine ⟨((keep_matrix [B, T, Q] loss B 1).getD 1 []).getD i 0,
      ((keep_matrix [B, T, Q] loss B 1).getD 2 []).getD i 0,
      htlt, hqlt, ?_, ?_, ?_, ?_, ?_⟩
    · exact getD_map_pos _ _ i _ 0 (by rw [hlen2]; exact hi)
    · exact getD_map_pos _ _ i _ 0 (by rw [hlen1]; exact hi)
    · rw [getD_map_pos _ _ i _ 0 (by rw [hlen2]; exact hi),
        List.getD_eq_getElem _ _ (by rw [hrot]; exact hqlt)]
      exact List.getElem_mem _
    · rw [getD_map_pos _ _ i _ 0 (by rw [hlen1]; exact hi),
        List.getD_eq_getElem _ _ (by rw [hshift]; exact htlt)]
      exact List.getElem_mem _
    · intro t2 q2 ht2 hq2
      have hi10 : i * 1 + 0 = i := by omega
      have hrowlen : (rowOf loss (prodDims [T, Q]) i).length =
          prodDims [T, Q] := rowOf_length loss B _ i hlen' hi
      have hrowpos : 0 < (rowOf loss (prodDims [T, Q]) i).length := by
        rw [hrowlen, hP]; exact hTQ
      have hf0 : (flatKeepIdx loss (prodDims [T, Q]) B 1).getD i 0 =
          i * prodDims [T, Q] +
            (topkIdx (rowOf loss (prodDims [T, Q]) i) 1).getD 0 0 := by
        have h := flatKeepIdx_getD loss (prodDims [T, Q]) B 1 i 0 hlen' h1 hi
          (by omega)
        rwa [hi10] at h
      have htop1 : (topkIdx (rowOf loss (prodDims [T, Q]) i) 1).length = 1 :=
        topkIdx_length _ 1 (by rw [hrowlen]; exact h1)
      have hj0 : (topkIdx (rowOf loss (prodDims [T, Q]) i) 1).getD 0 0 <
          prodDims [T, Q] := by
        have hmem : (topkIdx (rowOf loss (prodDims [T, Q]) i) 1).getD 0 0 ∈
            topkIdx (rowOf loss (prodDims [T, Q]) i) 1 := by
          rw [List.getD_eq_getElem _ _ (by rw [htop1]; omega)]
          exact List.getElem_mem _
        have h := topkIdx_mem_lt _ _ hmem
        rwa [hrowlen] at h
      have hiP : (i + 1) * prodDims [T, Q] ≤ B * prodDims [T, Q] :=
        Nat.mul_le_mul_right _ (by omega)
      have heiP : i * prodDims [T, Q] + prodDims [T, Q] =
          (i + 1) * prodDims [T, Q] := by ring
      have hfin : (flatKeepIdx loss (prodDims [T, Q]) B 1).getD i 0 <
          prodDims [B, T, Q] := by
        rw [show prodDims [B, T, Q] = B * prodDims [T, Q] from
          prodDims_cons B [T, Q], hf0]
        omega
      have hdlen : (unflattenIdx [B, T, Q]
          ((flatKeepIdx loss (prodDims [T, Q]) B 1).getD i 0)).1.length = 3 := by
        rw [unflattenIdx_fst_length]
        try rfl
      obtain ⟨a, b, c, habc⟩ := List.length_eq_three.mp hdlen
      have ha : a = i := by
        have h := unflattenIdx_head_batch B [T, Q] i
          ((topkIdx (rowOf loss (prodDims [T, Q]) i) 1).getD 0 0) hi hj0
        rw [← hf0, habc] at h
        simpa using h
      have hb : ((keep_matrix [B, T, Q] loss B 1).getD 1 []).getD i 0 = b := by
        rw [hent1, habc]
        try rfl
      have hc : ((keep_matrix [B, T, Q] loss B 1).getD 2 []).getD i 0 = c := by
        rw [hent2, habc]
        try rfl
      have hflat : flattenIdx [B, T, Q] [a, b, c] =
          (flatKeepIdx loss (prodDims [T, Q]) B 1).getD i 0 := by
        rw [← habc]
        exact flattenIdx_unflattenIdx_of_lt _ _ hfin
      have hflat3 : ∀ x y z : Nat,
          flattenIdx [B, T, Q] [x, y, z] = x * (T * Q) + (y * Q + z) := by
        intro x y z
        simp [flattenIdx, prodDims]
        try ring
      have hidx : i * (T * Q) +
          (((keep_matrix [B, T, Q] loss B 1).getD 1 []).getD i 0 * Q +
            ((keep_matrix [B, T, Q] loss B 1).getD 2 []).getD i 0) =
          (flatKeepIdx loss (prodDims [T, Q]) B 1).getD i 0 := by
        rw [hb, hc]
        have h2 := hflat3 a b c
        rw [ha] at h2 hflat
        rw [← h2, hflat]
      have hj2 : t2 * Q + q2 < T * Q := by
        have h2 : (t2 + 1) * Q ≤ T * Q := Nat.mul_le_mul_right Q (by omega)
        have e2 : t2 * Q + Q = (t2 + 1) * Q := by ring
        omega
      have hLHS : loss.getD
          ((flatKeepIdx loss (prodDims [T, Q]) B 1).getD i 0) 0 =
          (rowOf loss (prodDims [T, Q]) i).getD
            ((topkIdx (rowOf loss (prodDims [T, Q]) i) 1).getD 0 0) 0 := by
        rw [hf0, ← rowOf_getD loss B _ i _ hlen' hi hj0]
      have hRHS : loss.getD (i * (T * Q) + (t2 * Q + q2)) 0 =
          (rowOf loss (prodDims [T, Q]) i).getD (t2 * Q + q2) 0 := by
        rw [show i * (T * Q) + (t2 * Q + q2) =
            i * prodDims [T, Q] + (t2 * Q + q2) by rw [hP],
          ← rowOf_getD loss B _ i _ hlen' hi (by rw [hP]; exact hj2)]
      rw [hidx, hLHS, hRHS]
      exact topk_one_min _ hrowpos _ (by rw [hrowlen, hP]; exact hj2)
  · simp
  · intro r hr
    rcases List.mem_map.mp hr with ⟨b, _, rfl⟩
    simp
  · intro b p hb hp
    have hbk : b * K + p < B * K := by
      have h2 : (b + 1) * K ≤ B * K := Nat.mul_le_mul_right K (by omega)
      have e2 : b * K + K = (b + 1) * K := by ring
      omega
    have hnb : ((List.range B).map fun b2 => (List.range K).map fun p2 =>
        (((keep_matrix [B, T, Q] loss B K).getD 1 []).getD (b2 * K + p2) 0,
          ((keep_matrix [B, T, Q] loss B K).getD 2 []).getD
            (b2 * K + p2) 0)).getD b [] =
        (List.range K).map fun p2 =>
          (((keep_matrix [B, T, Q] loss B K).getD 1 []).getD (b * K + p2) 0,
            ((keep_matrix [B, T, Q] loss B K).getD 2 []).getD
              (b * K + p2) 0) := by
      rw [List.getD_eq_getElem _ _ (by simpa using hb), List.getElem_map,
        List.getElem_range]
    rw [hnb]
    have hentry : ((List.range K).map fun p2 =>
        (((keep_matrix [B, T, Q] loss B K).getD 1 []).getD (b * K + p2) 0,
          ((keep_matrix [B, T, Q] loss B K).getD 2 []).getD
            (b * K + p2) 0)).getD p (0, 0) =
        (((keep_matrix [B, T, Q] loss B K).getD 1 []).getD (b * K + p) 0,
          ((keep_matrix [B, T, Q] loss B K).getD 2 []).getD (b * K + p) 0) := by
      rw [List.getD_eq_getElem _ _ (by simpa using hp), List.getElem_map,
        List.getElem_range]
    rw [hentry]
    refine ⟨rfl, ?_, ?_⟩
    · exact keep_matrix_getD_lt B [T, Q] loss K 1 (b * K + p) hB hrest hlen'
        hK' (by simp) hbk
    · exact keep_matrix_getD_lt B [T, Q] loss K 2 (b * K + p) hB hrest hlen'
        hK' (by simp) hbk

/-- Witness for C5: batch of 1 image, 2 base shifts, 1 base orientation,
`nkeptposes = 1`, concrete loss [[5, 3]], opaque rotations/shifts as
naturals. -/
theorem opt_theta_trans0_spec_witness :
    ((0 : Nat) < 1 ∧ (0 : Nat) < 2 ∧ (0 : Nat) < 1 ∧
      ([5, 3] : List ℚ).length = 1 * (2 * 1) ∧ 1 ≤ 2 * 1 ∧
      ([10] : List Nat).length = 1 ∧ ([20, 30] : List Nat).length = 2) ∧
    (∃ best_rot best_trans nip,
      (opt_theta_trans0 false [5, 3] 1 2 1 [10] [20, 30] 1
          (0 : Nat) (0 : Nat)).1 = Except.ok (best_rot, best_trans, nip) ∧
      best_rot.length = 1 ∧ best_trans.length = 1 ∧
      (∀ i, i < 1 → ∃ t q, t < 2 ∧ q < 1 ∧
        best_rot.getD i 0 = ([10] : List Nat).getD q 0 ∧
        best_trans.getD i 0 = ([20, 30] : List Nat).getD t 0 ∧
        best_rot.getD i 0 ∈ ([10] : List Nat) ∧
        best_trans.getD i 0 ∈ ([20, 30] : List Nat) ∧
        (∀ t2 q2, t2 < 2 → q2 < 1 →
          ([5, 3] : List ℚ).getD (i * (2 * 1) + (t * 1 + q)) 0 ≤
            ([5, 3] : List ℚ).getD (i * (2 * 1) + (t2 * 1 + q2)) 0)) ∧
      nip.length = 1 ∧ (∀ r ∈ nip, r.length = 1) ∧
      (∀ b p, b < 1 → p < 1 →
        (nip.getD b []).getD p (0, 0) =
          (((keep_matrix [1, 2, 1] [5, 3] 1 1).getD 1 []).getD (b * 1 + p) 0,
            ((keep_matrix [1, 2, 1] [5, 3] 1 1).getD 2 []).getD
              (b * 1 + p) 0) ∧
        ((nip.getD b []).getD p (0, 0)).1 < 2 ∧
        ((nip.getD b []).getD p (0, 0)).2 < 1)) :=
  ⟨⟨by norm_num, by norm_num, by norm_num, by norm_num, by norm_num,
      by norm_num, by norm_num⟩,
    opt_theta_trans0_spec [5, 3] 1 2 1 1 [10] [20, 30] 0 0 (by norm_num)
      (by norm_num) (by norm_num) (by norm_num) (by norm_num) rfl rfl⟩
